import Mathlib

/-!
Verification of the perturbation/aggregation attribution core
(`captum/attr/_core/noise_tunnel.py` and `captum/attr/_core/gradient_shap.py`).

Modelling conventions (shallow embedding):
* a tensor of rank ≥ 1 is `List (List ℚ)`: the outer list is the leading
  "example" axis, each row is the flattened remaining axes;
* an input bundle (tuple of tensors) is `List Tensor`;
* random draws (`torch.normal`, `np.random.uniform`) are supplied by explicit
  oracle functions: `torch.normal(0, stdev)` is modelled as `stdev * g i j`
  where `g` yields the standard-normal draws, which is the scaling property
  of the Gaussian family; distributional statements themselves are outside
  the embedding;
* the wrapped attribution method is an explicit function argument, and the
  keyword-argument mapping passed through to it is an opaque type `κ`
  together with the external expansion helpers modelled as a function
  `expandK : Bool → ℕ → κ → κ` (draw-baselines flag, replication factor);
* Python `assert` failures (`InvalidArgument` in the spec's taxonomy) and the
  `UnboundLocalError` runtime failure are both modelled by `Except`.
-/

namespace Captum

abbrev Row := List ℚ
abbrev Tensor := List Row
abbrev Bundle := List Tensor

/-- Elementwise sum of two rows (`torch` broadcast-free `+`). -/
def addRow (a b : Row) : Row := List.zipWith (· + ·) a b

/-- Elementwise sum of two tensors. -/
def addT (a b : Tensor) : Tensor := List.zipWith addRow a b

/-- Elementwise difference of two tensors. -/
def subT (a b : Tensor) : Tensor :=
  List.zipWith (fun r s => List.zipWith (· - ·) r s) a b

/-- Elementwise product of two tensors. -/
def mulT (a b : Tensor) : Tensor :=
  List.zipWith (fun r s => List.zipWith (· * ·) r s) a b

/-- Elementwise square of a row (`attribution ** 2`). -/
def sqRow (r : Row) : Row := r.map (fun x => x * x)

/-- Structural indexed map; used to model indexed elementwise tensor builders. -/
def mapIdxA (f : ℕ → α → β) : List α → List β
  | [] => []
  | a :: as => f 0 a :: mapIdxA (fun i => f (i + 1)) as

/-- Model of `input.repeat_interleave(k, dim=0)`: each example row is repeated
`k` times contiguously (example-major, replica-minor ordering). -/
def repeatInterleave (k : ℕ) : Tensor → Tensor
  | [] => []
  | r :: rs => List.replicate k r ++ repeatInterleave k rs

/-- Model of the inner `add_noise_to_input` (noise_tunnel.py lines 209-230):
expand the input by the number of drawn samples and add noise
`torch.normal(0, stdev)` elementwise; `g i j` is the standard-normal oracle
draw for element `(i, j)` of the expanded tensor. -/
def add_noise_to_input (input : Tensor) (stdev : ℚ) (k : ℕ) (g : ℕ → ℕ → ℚ) : Tensor :=
  mapIdxA (fun i row => mapIdxA (fun j x => x + stdev * g i j) row)
    (repeatInterleave k input)

/-- The `stdevs` argument of `NoiseTunnel.attribute`: a single float, a tuple
of floats, or a value of any other type. -/
inductive StdevArg where
  | float (v : ℚ)
  | tup (vs : List ℚ)
  | other
deriving DecidableEq

/-- Errors of the modelled core.  `invalidArgument` models a failed Python
`assert` (the spec's InvalidArgument taxon), `unboundLocal` models an
`UnboundLocalError` raised when reading a never-assigned local variable. -/
inductive NTErr where
  | invalidArgument (msg : String)
  | unboundLocal (var : String)
  | notSupported (msg : String)
deriving DecidableEq

/-- Model of the inner `add_noise_to_inputs` (noise_tunnel.py lines 184-207).
When `stdevs` is a tuple the length assert runs, but the local `stdevs_` is
assigned only in the `else` (single-float) branch of the source, so reaching
`zip(inputs, stdevs_)` on the tuple path raises `UnboundLocalError`.
`g j i l` is the noise oracle for tensor `j`, expanded row `i`, element `l`. -/
def add_noise_to_inputs (stdevs : StdevArg) (inputs : Bundle) (k : ℕ)
    (g : ℕ → ℕ → ℕ → ℚ) : Except NTErr Bundle :=
  match stdevs with
  | StdevArg.tup vs =>
      if vs.length = inputs.length then
        Except.error (NTErr.unboundLocal "stdevs_")
      else
        Except.error (NTErr.invalidArgument
          "The number of input tensors must be equal to the number of stdevs values")
  | StdevArg.float v =>
      Except.ok (mapIdxA (fun j t => add_noise_to_input t v k (g j)) inputs)
  | StdevArg.other =>
      Except.error (NTErr.invalidArgument "stdevs must be type float.")

/-- Elementwise sum of a list of rows (`tensor.sum(dim=1)` on one chunk). -/
def addRows : Tensor → Row
  | [] => []
  | [r] => r
  | r :: rs => addRow r (addRows rs)

/-- Model of `attribution.view(bsz, k, *rest)`: the list of `bsz` chunks of
`k` consecutive rows, where `bsz = attribution.shape[0] // k`. -/
def viewChunk (k : ℕ) (t : Tensor) : List Tensor :=
  (List.range (t.length / k)).map (fun e => (t.drop (e * k)).take k)

/-- Model of `current_attribution_sum` in `update_sum_attribution_and_sq`: reshape to
`(bsz, k, *rest)` and sum over the replica axis. -/
def chunkSum (k : ℕ) (t : Tensor) : Tensor := (viewChunk k t).map addRows

/-- Model of `current_attribution_sq` in `update_sum_attribution_and_sq`: reshape,
square elementwise, and sum over the replica axis. -/
def chunkSqSum (k : ℕ) (t : Tensor) : Tensor :=
  (viewChunk k t).map (fun c => addRows (c.map sqRow))

/-- One running accumulator entry: `None` before the first write, then the
running tensor (noise_tunnel.py lines 253-262). -/
def updateEntry (cur : Tensor) : Option Tensor → Option Tensor
  | none => some cur
  | some s => some (addT s cur)

/-- The pair of lazily initialized accumulator lists
(`sum_attributions`, `sum_attributions_sq`). -/
abbrev Accum := List (Option Tensor) × List (Option Tensor)

/-- Lazy initialization of an accumulator list to `[None] * n` on the first
sub-batch (noise_tunnel.py lines 392-398). -/
def initIfEmpty (n : ℕ) (acc : List (Option Tensor)) : List (Option Tensor) :=
  if acc.length = 0 then List.replicate n none else acc

/-- Fold one sub-batch attribution result into the running accumulators
(`update_partial_attribution_and_delta` over `update_sum_attribution_and_sq`). -/
def foldBatch (k : ℕ) (acc : Accum) (attrs : Bundle) : Accum :=
  ( List.zipWith (fun t o => updateEntry (chunkSum k t) o) attrs
      (initIfEmpty attrs.length acc.1),
    List.zipWith (fun t o => updateEntry (chunkSqSum k t) o) attrs
      (initIfEmpty attrs.length acc.2) )

/-- One sub-batch step of the aggregator loop: draw the noise, invoke the
wrapped attribution method `A` on the noised batch with the (already
expanded) keyword arguments `kw`, and fold the result into the accumulators
(noise_tunnel.py lines 384-408 body and 413-430). -/
def ntProcessBatch {κ : Type} (A : Bundle → κ → Bundle) (stdevs : StdevArg)
    (inputs : Bundle) (g : ℕ → ℕ → ℕ → ℚ) (size : ℕ) (kw : κ)
    (acc : Accum) : Except NTErr Accum :=
  match add_noise_to_inputs stdevs inputs size g with
  | Except.error e => Except.error e
  | Except.ok noisy => Except.ok (foldBatch size acc (A noisy kw))

/-- The `for _ in range(nt_samples_partition)` loop (noise_tunnel.py lines
384-408), instrumented with the list of sub-batch sizes handed to the
wrapped attribution method, in invocation order.  `gs b` is the noise oracle
of sub-batch number `b`. -/
def ntRunWhole {κ : Type} (A : Bundle → κ → Bundle) (stdevs : StdevArg)
    (inputs : Bundle) (gs : ℕ → ℕ → ℕ → ℕ → ℚ) (size : ℕ) (kw : κ) :
    ℕ → ℕ → Accum → Except NTErr Accum × List ℕ
  | 0, _, acc => (Except.ok acc, [])
  | n + 1, b, acc =>
    match ntProcessBatch A stdevs inputs (gs b) size kw acc with
    | Except.error e => (Except.error e, [])
    | Except.ok acc' =>
      let r := ntRunWhole A stdevs inputs gs size kw n (b + 1) acc'
      (r.1, size :: r.2)

/-- Division of an accumulator by the total trial count:
`sum_attribution * 1 / nt_samples` (noise_tunnel.py lines 432-443).  A still
uninitialized entry (impossible on any successful run with at least one
sub-batch) maps to the empty tensor, mirroring the source's unchecked cast. -/
def ntExpected (n : ℕ) (acc : List (Option Tensor)) : Bundle :=
  acc.map (fun o =>
    match o with
    | some t => t.map (fun r => r.map (fun x => x * 1 / (n : ℚ)))
    | none => [])

/-- Effective sub-batch size resolution (noise_tunnel.py lines 359-363):
all samples at once when no batch size is given, otherwise
`min(nt_samples, nt_samples_batch_size)`. -/
def ntBatchSize (ntSamples : ℕ) (ntSamplesBatchSize : Option ℕ) : ℕ :=
  match ntSamplesBatchSize with
  | none => ntSamples
  | some s => min ntSamples s

/-- The aggregator core shared by all three smoothing modes: sub-batch size
resolution, the whole-batch loop, the remainder batch, and the division by
`nt_samples` (noise_tunnel.py lines 358-443 minus validation and smoothing).
Returns the pair (expected attributions, expected squared attributions) and
the instrumentation trace of the sub-batch sizes processed. -/
def ntCore {κ : Type} (A : Bundle → κ → Bundle) (expandK : Bool → ℕ → κ → κ)
    (gs : ℕ → ℕ → ℕ → ℕ → ℚ) (inputs : Bundle) (ntSamples : ℕ)
    (ntSamplesBatchSize : Option ℕ) (stdevs : StdevArg) (draw : Bool)
    (kw : κ) : Except NTErr (Bundle × Bundle) × List ℕ :=
  let bsz := ntBatchSize ntSamples ntSamplesBatchSize
  let nPart := ntSamples / bsz
  let kwCopy := expandK draw bsz kw
  let w := ntRunWhole A stdevs inputs gs bsz kwCopy nPart 0 ([], [])
  match w.1 with
  | Except.error e => (Except.error e, w.2)
  | Except.ok acc =>
    let rem := ntSamples - nPart * bsz
    if 0 < rem then
      match ntProcessBatch A stdevs inputs (gs nPart) rem (expandK draw rem kw) acc with
      | Except.error e => (Except.error e, w.2)
      | Except.ok acc' =>
          (Except.ok (ntExpected ntSamples acc'.1, ntExpected ntSamples acc'.2),
           w.2 ++ [rem])
    else
      (Except.ok (ntExpected ntSamples acc.1, ntExpected ntSamples acc.2), w.2)

/-- Model of `SUPPORTED_NOISE_TUNNEL_TYPES` (noise_tunnel.py lines 24-31). -/
def SUPPORTED_NOISE_TUNNEL_TYPES : List String :=
  ["smoothgrad", "smoothgrad_sq", "vargrad"]

/-- Modelled from the spec: `_validate_noise_tunnel_type` lives in
`captum/attr/_utils/common.py`, outside the given sources; per the spec it
validates the smoothing mode against the fixed enumerated set and fails with
InvalidArgument otherwise. -/
def validNoiseTunnelType (ntType : String) : Bool :=
  SUPPORTED_NOISE_TUNNEL_TYPES.contains ntType

/-- Model of the inner `compute_smoothing` (noise_tunnel.py lines 315-333):
`smoothgrad` returns the means, `smoothgrad_sq` the means of squares, and
`vargrad` the elementwise `mean_sq - mean * mean`. -/
def compute_smoothing (ntType : String) (expected expectedSq : Bundle) : Bundle :=
  if ntType = "smoothgrad" then expected
  else if ntType = "smoothgrad_sq" then expectedSq
  else List.zipWith (fun e esq => subT esq (mulT e e)) expected expectedSq

/-- Model of `NoiseTunnel.attribute` (noise_tunnel.py lines 84-461) for the
attribution path: validation, the aggregation core, and the final smoothing
selection.  The second component is the instrumentation trace of sub-batch
sizes handed to the wrapped attribution method (empty when validation fails
before any trial). -/
def ntAttribute {κ : Type} (A : Bundle → κ → Bundle) (expandK : Bool → ℕ → κ → κ)
    (gs : ℕ → ℕ → ℕ → ℕ → ℚ) (inputs : Bundle) (ntType : String)
    (ntSamples : ℕ) (ntSamplesBatchSize : Option ℕ) (stdevs : StdevArg)
    (draw : Bool) (kw : κ) : Except NTErr Bundle × List ℕ :=
  if validNoiseTunnelType ntType then
    let c := ntCore A expandK gs inputs ntSamples ntSamplesBatchSize stdevs draw kw
    match c.1 with
    | Except.error e => (Except.error e, c.2)
    | Except.ok es => (Except.ok (compute_smoothing ntType es.1 es.2), c.2)
  else
    (Except.error (NTErr.invalidArgument
      "Noise types must be smoothgrad, smoothgrad_sq or vargrad"), [])

/-- Capability descriptor of a wrapped attribution method: the two runtime
capability queries `NoiseTunnel.__init__` performs on it. -/
structure AttributionMethod where
  has_convergence_delta : Bool
  multiplies_by_inputs : Bool
deriving DecidableEq

/-- State fixed by `NoiseTunnel.__init__` (noise_tunnel.py lines 61-77). -/
structure NoiseTunnelState where
  attribution_method : AttributionMethod
  is_delta_supported : Bool
  multiply_by_inputs : Bool
deriving DecidableEq

/-- Model of `NoiseTunnel.__init__`: stores the wrapped method and caches its
capability answers at construction time. -/
def NoiseTunnel_init (m : AttributionMethod) : NoiseTunnelState :=
  { attribution_method := m
    is_delta_supported := m.has_convergence_delta
    multiply_by_inputs := m.multiplies_by_inputs }

/-- Model of `NoiseTunnel.has_convergence_delta` (noise_tunnel.py lines
503-504): returns the stored value. -/
def NoiseTunnelState.hasConvergenceDelta (nt : NoiseTunnelState) : Bool :=
  nt.is_delta_supported

/-- Model of the `NoiseTunnel.multiplies_by_inputs` property. -/
def NoiseTunnelState.multipliesByInputs (nt : NoiseTunnelState) : Bool :=
  nt.multiply_by_inputs

/-- Result of `NoiseTunnel.attribute`: bare attributions, or attributions
paired with the concatenated delta tensor. -/
inductive AttrResult where
  | plain (attributions : Bundle)
  | withDelta (attributions : Bundle) (delta : Tensor)
deriving DecidableEq

/-- Extraction of the `return_convergence_delta` flag from the keyword
arguments (noise_tunnel.py lines 354-357): present and true. -/
def returnConvergenceDeltaOf (rcdKwarg : Option Bool) : Bool :=
  rcdKwarg.getD false

/-- Model of `NoiseTunnel._apply_checks_and_return_attributions`
(noise_tunnel.py lines 470-501): the delta is attached exactly when it is
supported and requested; the source's unchecked `cast(Tensor, delta)` of a
`None` delta is modelled by `Option.getD []`. -/
def apply_checks_and_return_attributions (nt : NoiseTunnelState)
    (attributions : Bundle) (return_convergence_delta : Bool)
    (delta : Option Tensor) : AttrResult :=
  if nt.is_delta_supported && return_convergence_delta then
    AttrResult.withDelta attributions (delta.getD [])
  else
    AttrResult.plain attributions

/-- Scaling of one row toward the baseline with a fixed coefficient:
`c * x + (1 - c) * b` elementwise. -/
def scaleRow (c : ℚ) (x b : Row) : Row :=
  List.zipWith (fun xi bi => c * xi + (1 - c) * bi) x b

/-- Model of `_scale_input` (gradient_shap.py lines 453-467): the coefficient
vector is reshaped to `(bsz, 1, ..., 1)` and broadcast, so example `e` of the
result is `rand[e] * input[e] + (1 - rand[e]) * baseline[e]`. -/
def scale_input (input baseline : Tensor) (rand : List ℚ) : Tensor :=
  List.zipWith (fun rc c => scaleRow c rc.1 rc.2) (input.zip baseline) rand

/-- The scaled bundle of `InputBaselineXGradient.attribute` (gradient_shap.py
lines 405-408): the same per-example coefficient vector is shared by every
tensor of the bundle. -/
def scaledInputs (inputs baselines : Bundle) (rand : List ℚ) : Bundle :=
  List.zipWith (fun i b => scale_input i b rand) inputs baselines

/-- Model of `InputBaselineXGradient.attribute` (gradient_shap.py lines
379-434).  `gradient_func` is the external gradient engine (spec §6) with the
forward function, target and additional forward arguments absorbed; `rand` is
the oracle for the single `np.random.uniform(0.0, 1.0, bsz)` coefficient
draw.  Convergence-delta computation is delegated to an external helper in
the source and is not part of the attribution value modelled here. -/
def inputBaselineXGradientAttr (gradient_func : Bundle → Bundle)
    (multiply_by_inputs : Bool) (inputs baselines : Bundle)
    (rand : List ℚ) : Bundle :=
  let grads := gradient_func (scaledInputs inputs baselines rand)
  if multiply_by_inputs then
    List.zipWith mulT (List.zipWith subT inputs baselines) grads
  else
    grads

/-- Keyword arguments flowing from `GradientShap.attribute` through the noise
tunnel to the inner attribution method: the baseline pool and the uniform
coefficient oracle of the inner method (drawn by the external RNG). -/
structure GSKw where
  baselines : Bundle
  rand : List ℚ

/-- The fresh `InputBaselineXGradient` instance built by
`GradientShap.attribute` (gradient_shap.py lines 281-284): the gradient
engine bound to the same forward function, plus the multiplier flag. -/
structure InputBaselineXGradientM where
  gradient_func : Bundle → Bundle
  multiply_by_inputs : Bool

/-- The inner instance as a wrapped attribution method over `GSKw` keyword
arguments. -/
def InputBaselineXGradientM.attr (self : InputBaselineXGradientM)
    (inputsNoised : Bundle) (kw : GSKw) : Bundle :=
  inputBaselineXGradientAttr self.gradient_func self.multiply_by_inputs
    inputsNoised kw.baselines kw.rand

/-- The `baselines` argument of `GradientShap.attribute`: a bundle or a
baseline-generating function. -/
inductive BaselinesArg where
  | bundle (b : Bundle)
  | gen (f : Bundle → Bundle)

/-- Modelled from the spec: `_format_callable_baseline` lives in
`captum/attr/_utils/common.py`, outside the given sources; per the spec it
resolves a generator baseline by invoking it (passing the inputs) and
returns a bundle baseline unchanged. -/
def format_callable_baseline (b : BaselinesArg) (inputs : Bundle) : Bundle :=
  match b with
  | BaselinesArg.bundle bb => bb
  | BaselinesArg.gen f => f inputs

/-- The `GradientShap` configuration fixed at construction
(gradient_shap.py lines 61-82). -/
structure GradientShapM where
  gradient_func : Bundle → Bundle
  multiply_by_inputs : Bool

/-- Model of `GradientShap.attribute` (gradient_shap.py lines 266-302):
resolve the baseline distribution, build a fresh `InputBaselineXGradient`
over the same forward function and multiplier flag, wrap it in a
`NoiseTunnel`, and invoke it with `nt_type="smoothgrad"`,
`nt_samples=n_samples`, the given `stdevs`, `draw_baseline_from_distrib=True`
and the resolved pool as the `baselines` keyword argument.  `expandK` models
the external keyword-argument expansion helpers and `gs` the Gaussian noise
oracle; `rand` is the coefficient oracle handed to the inner method. -/
def GradientShapM.attribute (self : GradientShapM)
    (expandK : Bool → ℕ → GSKw → GSKw) (gs : ℕ → ℕ → ℕ → ℕ → ℚ)
    (inputs : Bundle) (baselines : BaselinesArg) (n_samples : ℕ)
    (stdevs : StdevArg) (rand : List ℚ) : Except NTErr Bundle × List ℕ :=
  let baselinesResolved := format_callable_baseline baselines inputs
  let input_min_baseline_x_grad : InputBaselineXGradientM :=
    { gradient_func := self.gradient_func
      multiply_by_inputs := self.multiply_by_inputs }
  ntAttribute (fun ins kw => input_min_baseline_x_grad.attr ins kw) expandK gs
    inputs "smoothgrad" n_samples none stdevs true
    { baselines := baselinesResolved, rand := rand }

section Lemmas

variable {α β γ : Type}

/-- Indexing a `zipWith` of two lists inside their common length. -/
theorem zipWith_getD (f : α → β → γ) (d₁ : α) (d₂ : β) (d₃ : γ) :
    ∀ (l₁ : List α) (l₂ : List β) (i : ℕ), i < l₁.length → i < l₂.length →
      (List.zipWith f l₁ l₂).getD i d₃ = f (l₁.getD i d₁) (l₂.getD i d₂)
  | [], _, i, h₁, _ => absurd h₁ (by simp)
  | _ :: _, [], i, _, h₂ => absurd h₂ (by simp)
  | a :: l₁, b :: l₂, 0, _, _ => rfl
  | a :: l₁, b :: l₂, i + 1, h₁, h₂ =>
      zipWith_getD f d₁ d₂ d₃ l₁ l₂ i (Nat.lt_of_succ_lt_succ h₁)
        (Nat.lt_of_succ_lt_succ h₂)

/-- An indexed map whose function fixes every element is the identity. -/
theorem mapIdxA_id (f : ℕ → α → α) (h : ∀ i a, f i a = a) :
    ∀ l : List α, mapIdxA f l = l := by
  intro l
  induction l generalizing f with
  | nil => rfl
  | cons a as ih =>
      simp only [mapIdxA, h 0 a]
      exact congrArg (a :: ·) (ih (fun i => f (i + 1)) (fun i b => h (i + 1) b))

/-- Length of an indexed map. -/
theorem mapIdxA_length (f : ℕ → α → β) :
    ∀ l : List α, (mapIdxA f l).length = l.length := by
  intro l
  induction l generalizing f with
  | nil => rfl
  | cons a as ih => simpa [mapIdxA] using ih (fun i => f (i + 1))

/-- Replicating each row once is the identity. -/
theorem repeatInterleave_one (t : Tensor) : repeatInterleave 1 t = t := by
  induction t with
  | nil => rfl
  | cons r rs ih => simp [repeatInterleave, ih]

/-- Adding noise of standard deviation zero leaves the replicated input
unchanged. -/
theorem add_noise_to_input_zero (t : Tensor) (k : ℕ) (g : ℕ → ℕ → ℚ) :
    add_noise_to_input t 0 k g = repeatInterleave k t := by
  unfold add_noise_to_input
  apply mapIdxA_id
  intro i row
  apply mapIdxA_id
  intro j x
  ring

/-- Folding against a fresh `[None] * n` accumulator just records each
current value. -/
theorem zipWith_updateEntry_replicate (h : Tensor → Tensor) :
    ∀ l : List Tensor,
      List.zipWith (fun t o => updateEntry (h t) o) l (List.replicate l.length none)
        = l.map (fun t => some (h t))
  | [] => rfl
  | t :: ts => by
      simpa [List.replicate, updateEntry] using zipWith_updateEntry_replicate h ts

/-- Summing chunks of size one recovers the tensor. -/
theorem chunkSum_one (t : Tensor) : chunkSum 1 t = t := by
  apply List.ext_getElem?
  intro i
  simp only [chunkSum, viewChunk, List.map_map, List.getElem?_map]
  by_cases hi : i < t.length
  · have hr : (List.range (t.length / 1))[i]? = some i := by
      apply List.getElem?_range
      simpa using hi
    have hdrop : t.drop i = t[i] :: t.drop (i + 1) :=
      List.drop_eq_getElem_cons hi
    rw [hr, Option.map_some']
    simp only [Function.comp, Nat.mul_one, hdrop]
    simp [addRows, List.getElem?_eq_getElem hi]
  · have h₁ : t.length ≤ i := le_of_not_lt hi
    have hr : (List.range (t.length / 1))[i]? = none := by
      apply List.getElem?_eq_none
      simpa using h₁
    rw [hr]
    simp [List.getElem?_eq_none h₁]

end Lemmas

/-- A single-float `stdevs` never fails noise generation: one sub-batch step
always succeeds. -/
theorem ntProcessBatch_float {κ : Type} (A : Bundle → κ → Bundle) (v : ℚ)
    (inputs : Bundle) (g : ℕ → ℕ → ℕ → ℚ) (size : ℕ) (kw : κ) (acc : Accum) :
    ntProcessBatch A (StdevArg.float v) inputs g size kw acc
      = Except.ok (foldBatch size acc
          (A (mapIdxA (fun j t => add_noise_to_input t v size (g j)) inputs) kw)) := by
  simp [ntProcessBatch, add_noise_to_inputs]

/-- With a single-float `stdevs` the whole-batch loop performs exactly its
scheduled number of equal-size attributor invocations. -/
theorem ntRunWhole_float {κ : Type} (A : Bundle → κ → Bundle) (v : ℚ)
    (inputs : Bundle) (gs : ℕ → ℕ → ℕ → ℕ → ℚ) (size : ℕ) (kw : κ) :
    ∀ (n b : ℕ) (acc : Accum), ∃ acc',
      ntRunWhole A (StdevArg.float v) inputs gs size kw n b acc
        = (Except.ok acc', List.replicate n size) := by
  intro n
  induction n with
  | zero => exact fun b acc => ⟨acc, rfl⟩
  | succ n ih =>
      intro b acc
      obtain ⟨acc', h⟩ := ih (b + 1)
        (foldBatch size acc
          (A (mapIdxA (fun j t => add_noise_to_input t v size (gs b j)) inputs) kw))
      refine ⟨acc', ?_⟩
      simp [ntRunWhole, ntProcessBatch_float, h, List.replicate_succ]

/-- With a single-float `stdevs` the aggregator core succeeds and its
invocation trace is the scheduled whole sub-batches followed by the
remainder sub-batch when one is due. -/
theorem ntCore_float_trace {κ : Type} (A : Bundle → κ → Bundle)
    (expandK : Bool → ℕ → κ → κ) (gs : ℕ → ℕ → ℕ → ℕ → ℚ) (inputs : Bundle)
    (N : ℕ) (Sopt : Option ℕ) (v : ℚ) (draw : Bool) (kw : κ) :
    (ntCore A expandK gs inputs N Sopt (StdevArg.float v) draw kw).2
      = List.replicate (N / ntBatchSize N Sopt) (ntBatchSize N Sopt)
          ++ (if 0 < N - N / ntBatchSize N Sopt * ntBatchSize N Sopt
              then [N - N / ntBatchSize N Sopt * ntBatchSize N Sopt] else [])
    ∧ ∃ es, (ntCore A expandK gs inputs N Sopt (StdevArg.float v) draw kw).1
        = Except.ok es := by
  obtain ⟨acc, hw⟩ := ntRunWhole_float A v inputs gs (ntBatchSize N Sopt)
    (expandK draw (ntBatchSize N Sopt) kw) (N / ntBatchSize N Sopt) 0 ([], [])
  by_cases hrem : 0 < N - N / ntBatchSize N Sopt * ntBatchSize N Sopt
  · exact ⟨by simp [ntCore, hw, hrem, ntProcessBatch_float],
      by simp [ntCore, hw, hrem, ntProcessBatch_float]⟩
  · exact ⟨by simp [ntCore, hw, hrem], by simp [ntCore, hw, hrem]⟩

/-- Claim C2: for `N ≥ 1` requested samples and sub-batch size `S ≥ 1`, the
aggregator succeeds and hands the wrapped attribution method exactly
`N / min(N, S)` whole sub-batches of size `min(N, S)` followed by one final
sub-batch of size `N - (N / min(N, S)) * min(N, S)` when that remainder is
positive, so the total trial count folded into the accumulators is `N`. -/
theorem claim_C2_sub_batch_partitioning {κ : Type} (A : Bundle → κ → Bundle)
    (expandK : Bool → ℕ → κ → κ) (gs : ℕ → ℕ → ℕ → ℕ → ℚ) (inputs : Bundle)
    (ntType : String) (N S : ℕ) (v : ℚ) (draw : Bool) (kw : κ)
    (hN : 1 ≤ N) (hS : 1 ≤ S) (hty : validNoiseTunnelType ntType = true) :
    (∃ out, (ntAttribute A expandK gs inputs ntType N (some S) (StdevArg.float v)
        draw kw).1 = Except.ok out)
    ∧ (ntAttribute A expandK gs inputs ntType N (some S) (StdevArg.float v)
        draw kw).2
      = List.replicate (N / min N S) (min N S)
          ++ (if 0 < N - N / min N S * min N S
              then [N - N / min N S * min N S] else [])
    ∧ ((ntAttribute A expandK gs inputs ntType N (some S) (StdevArg.float v)
        draw kw).2).sum = N := by
  obtain ⟨hc2, es, hc1⟩ := ntCore_float_trace A expandK gs inputs N (some S) v draw kw
  have hbsz : ntBatchSize N (some S) = min N S := rfl
  have hle : N / min N S * min N S ≤ N := Nat.div_mul_le_self N (min N S)
  have hmin : 1 ≤ min N S := le_min hN hS
  have hattr : ntAttribute A expandK gs inputs ntType N (some S)
      (StdevArg.float v) draw kw
      = (Except.ok (compute_smoothing ntType es.1 es.2),
         List.replicate (N / min N S) (min N S)
           ++ (if 0 < N - N / min N S * min N S
               then [N - N / min N S * min N S] else [])) := by
    rw [hbsz] at hc2
    simp [ntAttribute, hty, hc1, hc2]
  refine ⟨⟨compute_smoothing ntType es.1 es.2, by simp [hattr]⟩, by simp [hattr], ?_⟩
  rw [hattr]
  by_cases hrem : 0 < N - N / min N S * min N S
  · simp [hrem, List.sum_replicate, smul_eq_mul]
    omega
  · simp [hrem, List.sum_replicate, smul_eq_mul]
    omega

/-- Concrete instance of claim C2: `n_samples = 7` with sub-batch size 3
processes sub-batches of sizes `[3, 3, 1]`, folding all 7 trials. -/
theorem claim_C2_witness :
    (ntAttribute (fun b (_ : Unit) => b) (fun _ _ k => k) (fun _ _ _ _ => 0)
        [[[1]]] "smoothgrad" 7 (some 3) (StdevArg.float 0) false ()).2
      = [3, 3, 1]
    ∧ ((ntAttribute (fun b (_ : Unit) => b) (fun _ _ k => k) (fun _ _ _ _ => 0)
        [[[1]]] "smoothgrad" 7 (some 3) (StdevArg.float 0) false ()).2).sum = 7 := by
  have h := claim_C2_sub_batch_partitioning (fun b (_ : Unit) => b)
    (fun _ _ k => k) (fun _ _ _ _ => 0) [[[1]]] "smoothgrad" 7 3 0 false ()
    (by decide) (by decide) (by decide)
  refine ⟨?_, h.2.2⟩
  rw [h.2.1]
  decide

/-- Replication is example-major: replica `i` of example `e` sits at row
`e * k + i` of the expanded tensor. -/
theorem repeatInterleave_getElem? (k : ℕ) :
    ∀ (t : Tensor) (e i : ℕ), i < k →
      (repeatInterleave k t)[e * k + i]? = t[e]? := by
  intro t
  induction t with
  | nil => intro e i _; simp [repeatInterleave]
  | cons r rs ih =>
      intro e i hi
      cases e with
      | zero =>
          have hlt : 0 * k + i < (List.replicate k r).length := by
            simp
            omega
          rw [repeatInterleave, List.getElem?_append_left hlt]
          simp [List.getElem?_replicate]
          omega
      | succ e =>
          have hge : (List.replicate k r).length ≤ (e + 1) * k + i := by
            simp
            nlinarith
          rw [repeatInterleave, List.getElem?_append_right hge]
          have harith : (e + 1) * k + i - (List.replicate k r).length = e * k + i := by
            simp
            ring_nf
            omega
          rw [harith, ih e i hi]
          simp

/-- Length of the elementwise sum of a nonempty list of rows of a common
length. -/
theorem addRows_length (m : ℕ) :
    ∀ c : Tensor, c ≠ [] → (∀ r ∈ c, r.length = m) → (addRows c).length = m
  | [], h, _ => absurd rfl h
  | [r], _, hr => hr r (by simp)
  | r :: r' :: rs, _, hr => by
      have ih := addRows_length m (r' :: rs) (by simp)
        (fun x hx => hr x (List.mem_cons_of_mem r hx))
      simp only [addRows, addRow, List.length_zipWith, ih,
        hr r (List.mem_cons_self r (r' :: rs))]
      exact min_self m

/-- Pointwise value of the elementwise sum of rows of a common length. -/
theorem addRows_getD (m j : ℕ) (hj : j < m) :
    ∀ c : Tensor, (∀ r ∈ c, r.length = m) →
      (addRows c).getD j 0 = ∑ i ∈ Finset.range c.length, (c.getD i []).getD j 0
  | [], _ => by simp [addRows]
  | [r], _ => by simp [addRows]
  | r :: r' :: rs, hr => by
      have htail : ∀ x ∈ r' :: rs, x.length = m :=
        fun x hx => hr x (List.mem_cons_of_mem r hx)
      have ih := addRows_getD m j hj (r' :: rs) htail
      have hlen : (addRows (r' :: rs)).length = m :=
        addRows_length m (r' :: rs) (by simp) htail
      have hstep : (addRows (r :: r' :: rs)).getD j 0
          = r.getD j 0 + (addRows (r' :: rs)).getD j 0 := by
        have hjr : j < r.length := by
          rw [hr r (List.mem_cons_self r (r' :: rs))]
          exact hj
        have hja : j < (addRows (r' :: rs)).length := by
          rw [hlen]
          exact hj
        simpa [addRows, addRow] using
          zipWith_getD (· + ·) 0 0 0 r (addRows (r' :: rs)) j hjr hja
      rw [hstep, ih]
      conv_rhs => rw [List.length_cons, Finset.sum_range_succ']
      simp only [List.getD_cons_succ, List.getD_cons_zero]
      ring

/-- Chunk `e` of the `(B, k, *rest)` view is rows `e * k .. e * k + k - 1`. -/
theorem viewChunk_getD (k B : ℕ) (t : Tensor) (e : ℕ) (hk : 0 < k)
    (hlen : t.length = B * k) (he : e < B) :
    (viewChunk k t).getD e [] = (t.drop (e * k)).take k := by
  have hdiv : t.length / k = B := by
    rw [hlen]
    exact Nat.mul_div_cancel B hk
  have hr : (List.range (t.length / k))[e]? = some e := by
    apply List.getElem?_range
    rw [hdiv]
    exact he
  simp [viewChunk, List.getD_eq_getElem?_getD, List.getElem?_map, hr]

/-- Row `i` of chunk `e` is row `e * k + i` of the attribution tensor. -/
theorem chunkRow_getD (k : ℕ) (t : Tensor) (e i : ℕ) (hi : i < k) :
    ((t.drop (e * k)).take k).getD i [] = t.getD (e * k + i) [] := by
  rw [List.getD_eq_getElem?_getD, List.getD_eq_getElem?_getD,
    List.getElem?_take, if_pos hi, List.getElem?_drop]

/-- The chunk of a tensor whose rows share length `m` again has rows of
length `m`, and exactly `k` of them. -/
theorem chunk_rows (k B m : ℕ) (t : Tensor) (e : ℕ) (hk : 0 < k)
    (hlen : t.length = B * k) (hrows : ∀ r ∈ t, r.length = m) (he : e < B) :
    (∀ r ∈ (t.drop (e * k)).take k, r.length = m)
    ∧ ((t.drop (e * k)).take k).length = k := by
  constructor
  · intro r hr
    exact hrows r (List.mem_of_mem_drop (List.mem_of_mem_take hr))
  · rw [List.length_take, List.length_drop, hlen]
    have : e * k + k ≤ B * k := by nlinarith
    omega

/-- Indexing a mapped list inside bounds. -/
theorem getD_map_lt {α β : Type} (f : α → β) (l : List α) (i : ℕ) (d : α)
    (d' : β) (h : i < l.length) : (l.map f).getD i d' = f (l.getD i d) := by
  rw [List.getD_eq_getElem?_getD, List.getElem?_map, List.getD_eq_getElem?_getD,
    List.getElem?_eq_getElem h]
  simp

/-- An in-bounds `getD` value is a member of the list. -/
theorem getD_mem {α : Type} (l : List α) (i : ℕ) (d : α) (h : i < l.length) :
    l.getD i d ∈ l := by
  rw [List.getD_eq_getElem l d h]
  exact List.getElem_mem h

/-- Claim C4: within a sub-batch of size `k`, replication is example-major
(replica `i` of example `e` is row `e * k + i` of the expanded input), and
the fold reshapes the returned attribution to `(B, k, *rest)` and sums /
sum-of-squares over the replica axis, so slot `e` of the accumulator update
receives exactly the `k` trial attributions `e * k .. e * k + k - 1` of
example `e` and no rows of other examples. -/
theorem claim_C4_example_major_replication_and_replica_axis_fold
    (input attribution : Tensor) (k B m e i j : ℕ)
    (hk : 0 < k) (hlen : attribution.length = B * k)
    (hrows : ∀ r ∈ attribution, r.length = m)
    (he : e < B) (hi : i < k) (hj : j < m) :
    (repeatInterleave k input)[e * k + i]? = input[e]?
    ∧ ((chunkSum k attribution).getD e []).getD j 0
        = ∑ x ∈ Finset.range k, (attribution.getD (e * k + x) []).getD j 0
    ∧ ((chunkSqSum k attribution).getD e []).getD j 0
        = ∑ x ∈ Finset.range k,
            (attribution.getD (e * k + x) []).getD j 0
              * (attribution.getD (e * k + x) []).getD j 0 := by
  obtain ⟨hcr, hcl⟩ := chunk_rows k B m attribution e hk hlen hrows he
  have hBlen : (viewChunk k attribution).length = B := by
    simp [viewChunk, hlen, Nat.mul_div_cancel B hk]
  have heB : e < (viewChunk k attribution).length := by
    rw [hBlen]
    exact he
  have hrowlen : ∀ x, x < k →
      (attribution.getD (e * k + x) []).length = m := by
    intro x hx
    have hxb : e * k + x < attribution.length := by
      rw [hlen]
      nlinarith
    exact hrows _ (getD_mem attribution (e * k + x) [] hxb)
  refine ⟨repeatInterleave_getElem? k input e i hi, ?_, ?_⟩
  · have h₁ : (chunkSum k attribution).getD e []
        = addRows ((attribution.drop (e * k)).take k) := by
      rw [chunkSum, getD_map_lt addRows _ e [] [] heB,
        viewChunk_getD k B attribution e hk hlen he]
    rw [h₁, addRows_getD m j hj _ hcr, hcl]
    refine Finset.sum_congr rfl (fun x hx => ?_)
    rw [chunkRow_getD k attribution e x (Finset.mem_range.mp hx)]
  · have hsq : ∀ r ∈ ((attribution.drop (e * k)).take k).map sqRow,
        r.length = m := by
      intro r hr
      obtain ⟨r₀, hr₀, hrr⟩ := List.mem_map.mp hr
      rw [← hrr, sqRow, List.length_map]
      exact hcr r₀ hr₀
    have h₁ : (chunkSqSum k attribution).getD e []
        = addRows (((attribution.drop (e * k)).take k).map sqRow) := by
      rw [chunkSqSum, getD_map_lt _ _ e [] [] heB,
        viewChunk_getD k B attribution e hk hlen he]
    rw [h₁, addRows_getD m j hj _ hsq, List.length_map, hcl]
    refine Finset.sum_congr rfl (fun x hx => ?_)
    have hx' : x < k := Finset.mem_range.mp hx
    have hxlen : x < ((attribution.drop (e * k)).take k).length := by
      rw [hcl]
      exact hx'
    rw [getD_map_lt sqRow _ x [] [] hxlen, chunkRow_getD k attribution e x hx']
    have hjr : j < (attribution.getD (e * k + x) []).length := by
      rw [hrowlen x hx']
      exact hj
    rw [sqRow, getD_map_lt (fun y => y * y) _ j 0 0 hjr]

/-- Concrete instance of claim C4: `B = 2` examples, `k = 2` replicas.
Replica row 3 of the expanded input is example 1, and slot 1 of the folded
sums collects attribution rows 2 and 3 only. -/
theorem claim_C4_witness :
    (repeatInterleave 2 [[5], [6]])[1 * 2 + 1]? = ([[5], [6]] : Tensor)[1]?
    ∧ ((chunkSum 2 [[1], [2], [3], [4]]).getD 1 []).getD 0 0
        = ∑ x ∈ Finset.range 2,
            (([[1], [2], [3], [4]] : Tensor).getD (1 * 2 + x) []).getD 0 0
    ∧ ((chunkSqSum 2 [[1], [2], [3], [4]]).getD 1 []).getD 0 0
        = ∑ x ∈ Finset.range 2,
            (([[1], [2], [3], [4]] : Tensor).getD (1 * 2 + x) []).getD 0 0
              * (([[1], [2], [3], [4]] : Tensor).getD (1 * 2 + x) []).getD 0 0 :=
  claim_C4_example_major_replication_and_replica_axis_fold
    [[5], [6]] [[1], [2], [3], [4]] 2 2 1 1 1 0
    (by decide) (by decide) (by decide) (by decide) (by decide) (by decide)

/-- Claim C3: for one fixed sequence of per-trial attributions (same wrapped
method, same noise oracle, same keyword arguments), the `vargrad` output is
the `smoothgrad_sq` output minus the elementwise square of the `smoothgrad`
output — the biased variance computed from the same running accumulators. -/
theorem claim_C3_variance_is_mean_sq_minus_mean_squared {κ : Type}
    (A : Bundle → κ → Bundle) (expandK : Bool → ℕ → κ → κ)
    (gs : ℕ → ℕ → ℕ → ℕ → ℚ) (inputs : Bundle) (N : ℕ) (Sopt : Option ℕ)
    (stdevs : StdevArg) (draw : Bool) (kw : κ) (aM aSq aV : Bundle)
    (hM : (ntAttribute A expandK gs inputs "smoothgrad" N Sopt stdevs draw kw).1
        = Except.ok aM)
    (hSq : (ntAttribute A expandK gs inputs "smoothgrad_sq" N Sopt stdevs draw kw).1
        = Except.ok aSq)
    (hV : (ntAttribute A expandK gs inputs "vargrad" N Sopt stdevs draw kw).1
        = Except.ok aV) :
    aV = List.zipWith (fun mean meanSq => subT meanSq (mulT mean mean)) aM aSq := by
  rcases hc : (ntCore A expandK gs inputs N Sopt stdevs draw kw).1 with e | es
  · simp [ntAttribute, validNoiseTunnelType, SUPPORTED_NOISE_TUNNEL_TYPES, hc] at hM
  · simp [ntAttribute, validNoiseTunnelType, SUPPORTED_NOISE_TUNNEL_TYPES, hc,
      compute_smoothing] at hM hSq hV
    rw [← hM, ← hSq, ← hV]

/-- Concrete instance of claim C3: one trial of the identity attribution
method on input `[[3]]` with zero noise gives mean `[[3]]`, mean of squares
`[[9]]` and variance `[[0]] = [[9 - 3 * 3]]`. -/
theorem claim_C3_witness :
    ([[[0]]] : Bundle)
      = List.zipWith (fun mean meanSq => subT meanSq (mulT mean mean))
          [[[3]]] [[[9]]] :=
  claim_C3_variance_is_mean_sq_minus_mean_squared (fun b (_ : Unit) => b)
    (fun _ _ k => k) (fun _ _ _ _ => 5) [[[3]]] 1 none (StdevArg.float 0)
    false () [[[3]]] [[[9]]] [[[0]]]
    (by simp [ntAttribute, ntCore, ntBatchSize, ntRunWhole, ntProcessBatch,
      add_noise_to_inputs, add_noise_to_input, repeatInterleave, mapIdxA,
      foldBatch, initIfEmpty, updateEntry, chunkSum, chunkSqSum, viewChunk,
      addRows, addRow, sqRow, ntExpected, compute_smoothing,
      validNoiseTunnelType, SUPPORTED_NOISE_TUNNEL_TYPES, List.range_succ])
    (by
      simp [ntAttribute, ntCore, ntBatchSize, ntRunWhole, ntProcessBatch,
        add_noise_to_inputs, add_noise_to_input, repeatInterleave, mapIdxA,
        foldBatch, initIfEmpty, updateEntry, chunkSum, chunkSqSum, viewChunk,
        addRows, addRow, sqRow, ntExpected, compute_smoothing,
        validNoiseTunnelType, SUPPORTED_NOISE_TUNNEL_TYPES, List.range_succ]
      norm_num)
    (by simp [ntAttribute, ntCore, ntBatchSize, ntRunWhole, ntProcessBatch,
      add_noise_to_inputs, add_noise_to_input, repeatInterleave, mapIdxA,
      foldBatch, initIfEmpty, updateEntry, chunkSum, chunkSqSum, viewChunk,
      addRows, addRow, sqRow, ntExpected, compute_smoothing,
      validNoiseTunnelType, SUPPORTED_NOISE_TUNNEL_TYPES, List.range_succ,
      subT, mulT])

/-- Applying `ntExpected` to an accumulator of present entries divides each entry. -/
theorem ntExpected_map_some (n : ℕ) (f : Tensor → Tensor) (l : Bundle) :
    ntExpected n (l.map (fun t => some (f t)))
      = l.map (fun t => (f t).map (fun r => r.map (fun x => x * 1 / (n : ℚ)))) := by
  simp [ntExpected, List.map_map, Function.comp]

/-- Dividing by one trial is the identity on a tensor. -/
theorem map_div_one_trial (t : Tensor) :
    t.map (fun r => r.map (fun x => x * 1 / ((1 : ℕ) : ℚ))) = t := by
  have hfx : (fun x : ℚ => x * 1 / ((1 : ℕ) : ℚ)) = fun x => x := by
    funext x
    norm_num
  rw [hfx]
  simp

/-- Claim C5: with `nt_samples = 1`, `stdevs = 0.0` and smoothing mode
"smoothgrad", the aggregator returns exactly the attributions of one direct
invocation of the (deterministic) wrapped attribution method on the original
inputs and the passthrough keyword arguments.  The hypothesis captures the
external expansion helpers tiling the keyword arguments by a replication
factor of one, which leaves them unchanged. -/
theorem claim_C5_single_trial_zero_noise_identity {κ : Type}
    (A : Bundle → κ → Bundle) (expandK : Bool → ℕ → κ → κ)
    (gs : ℕ → ℕ → ℕ → ℕ → ℚ) (inputs : Bundle) (draw : Bool) (kw : κ)
    (hexp : expandK draw 1 kw = kw) :
    (ntAttribute A expandK gs inputs "smoothgrad" 1 none (StdevArg.float 0)
        draw kw).1
      = Except.ok (A inputs kw) := by
  have hnoise : add_noise_to_inputs (StdevArg.float 0) inputs 1 (gs 0)
      = Except.ok inputs := by
    simp only [add_noise_to_inputs]
    congr 1
    apply mapIdxA_id
    intro i t
    rw [add_noise_to_input_zero, repeatInterleave_one]
  have hstep : ntProcessBatch A (StdevArg.float 0) inputs (gs 0) 1 kw ([], [])
      = Except.ok (foldBatch 1 ([], []) (A inputs kw)) := by
    simp [ntProcessBatch, hnoise]
  have hrun : ntRunWhole A (StdevArg.float 0) inputs gs 1 kw 1 0 ([], [])
      = (Except.ok (foldBatch 1 ([], []) (A inputs kw)), [1]) := by
    simp [ntRunWhole, hstep]
  have hcore : ntCore A expandK gs inputs 1 none (StdevArg.float 0) draw kw
      = (Except.ok
          (ntExpected 1 (foldBatch 1 ([], []) (A inputs kw)).1,
           ntExpected 1 (foldBatch 1 ([], []) (A inputs kw)).2), [1]) := by
    simp [ntCore, ntBatchSize, hexp, hrun]
  have hfold : foldBatch 1 ([], []) (A inputs kw)
      = ((A inputs kw).map (fun t => some (chunkSum 1 t)),
         (A inputs kw).map (fun t => some (chunkSqSum 1 t))) := by
    simp [foldBatch, initIfEmpty, zipWith_updateEntry_replicate]
  have hmean : ntExpected 1 ((A inputs kw).map (fun t => some (chunkSum 1 t)))
      = A inputs kw := by
    rw [ntExpected_map_some]
    have hpt : ∀ t ∈ A inputs kw,
        (chunkSum 1 t).map (fun r => r.map (fun x => x * 1 / ((1 : ℕ) : ℚ))) = t := by
      intro t _
      rw [map_div_one_trial, chunkSum_one]
    rw [List.map_congr_left hpt]
    simp
  simp [ntAttribute, validNoiseTunnelType, SUPPORTED_NOISE_TUNNEL_TYPES,
    hcore, compute_smoothing, hfold, hmean]

/-- Concrete instance of claim C5: one trial, zero noise, identity wrapped
method on input `[[2]]`. -/
theorem claim_C5_witness :
    (ntAttribute (fun b (_ : Unit) => b) (fun _ _ k => k) (fun _ _ _ _ => 7)
        [[[2]]] "smoothgrad" 1 none (StdevArg.float 0) false ()).1
      = Except.ok [[[2]]] :=
  claim_C5_single_trial_zero_noise_identity (fun b (_ : Unit) => b)
    (fun _ _ k => k) (fun _ _ _ _ => 7) [[[2]]] false () rfl

/-- Claim C6: `InputBaselineXGradient.attribute` uses one scalar coefficient
per example, the same coefficient vector shared by every tensor of the
bundle and broadcast across the non-example axes: element `(e, j)` of every
scaled tensor `a` is `rand[e] * input[a][e][j] + (1 - rand[e]) *
baseline[a][e][j]`, and the gradient engine is evaluated exactly at those
scaled points.  The `Uniform(0,1)` marginal of `rand` is a property of the
external RNG, modelled here as the oracle vector drawn once per call. -/
theorem claim_C6_single_shared_coefficient_and_scaling
    (gradient_func : Bundle → Bundle) (inputs baselines : Bundle)
    (rand : List ℚ) (a e j : ℕ)
    (ha₁ : a < inputs.length) (ha₂ : a < baselines.length)
    (he₁ : e < (inputs.getD a []).length) (he₂ : e < (baselines.getD a []).length)
    (he₃ : e < rand.length)
    (hj₁ : j < ((inputs.getD a []).getD e []).length)
    (hj₂ : j < ((baselines.getD a []).getD e []).length) :
    (((scaledInputs inputs baselines rand).getD a []).getD e []).getD j 0
      = rand.getD e 0 * ((inputs.getD a []).getD e []).getD j 0
        + (1 - rand.getD e 0) * ((baselines.getD a []).getD e []).getD j 0
    ∧ inputBaselineXGradientAttr gradient_func false inputs baselines rand
      = gradient_func (scaledInputs inputs baselines rand) := by
  constructor
  · have h₁ : (scaledInputs inputs baselines rand).getD a []
        = scale_input (inputs.getD a []) (baselines.getD a []) rand :=
      zipWith_getD _ [] [] [] inputs baselines a ha₁ ha₂
    have hzl : e < ((inputs.getD a []).zip (baselines.getD a [])).length := by
      rw [List.length_zip]
      exact lt_min he₁ he₂
    have h₂ : (scale_input (inputs.getD a []) (baselines.getD a []) rand).getD e []
        = scaleRow (rand.getD e 0)
            (((inputs.getD a []).zip (baselines.getD a [])).getD e ([], [])).1
            (((inputs.getD a []).zip (baselines.getD a [])).getD e ([], [])).2 :=
      zipWith_getD _ ([], []) 0 [] _ rand e hzl he₃
    have h₃ : ((inputs.getD a []).zip (baselines.getD a [])).getD e ([], [])
        = ((inputs.getD a []).getD e [], (baselines.getD a []).getD e []) := by
      rw [List.zip_eq_zipWith]
      exact zipWith_getD Prod.mk [] [] ([], []) _ _ e he₁ he₂
    rw [h₁, h₂, h₃]
    exact zipWith_getD _ 0 0 0 _ _ j hj₁ hj₂
  · simp [inputBaselineXGradientAttr]

/-- Concrete instance of claim C6: two tensors, one example, coefficient
`1/3`, checked on the second tensor of the bundle. -/
theorem claim_C6_witness :
    (((scaledInputs [[[2]], [[4]]] [[[0]], [[10]]] [1/3]).getD 1 []).getD 0 []).getD 0 0
      = ([1/3] : List ℚ).getD 0 0 * ((([[[2]], [[4]]] : Bundle).getD 1 []).getD 0 []).getD 0 0
        + (1 - ([1/3] : List ℚ).getD 0 0)
          * ((([[[0]], [[10]]] : Bundle).getD 1 []).getD 0 []).getD 0 0 :=
  (claim_C6_single_shared_coefficient_and_scaling (fun b => b)
    [[[2]], [[4]]] [[[0]], [[10]]] [1/3] 1 0 0
    (by decide) (by decide) (by decide) (by decide) (by decide)
    (by decide) (by decide)).1

/-- Claim C7: with `multiply_by_inputs = true` fixed at construction, the
attribution is elementwise `gradient * (input - baseline)` per tensor; with
`multiply_by_inputs = false` it is the raw gradients. -/
theorem claim_C7_multiply_by_inputs_flag
    (gradient_func : Bundle → Bundle) (inputs baselines : Bundle)
    (rand : List ℚ) (a e j : ℕ)
    (ha₁ : a < inputs.length) (ha₂ : a < baselines.length)
    (ha₃ : a < (gradient_func (scaledInputs inputs baselines rand)).length)
    (he₁ : e < (inputs.getD a []).length) (he₂ : e < (baselines.getD a []).length)
    (he₃ : e < ((gradient_func (scaledInputs inputs baselines rand)).getD a []).length)
    (hj₁ : j < ((inputs.getD a []).getD e []).length)
    (hj₂ : j < ((baselines.getD a []).getD e []).length)
    (hj₃ : j < (((gradient_func (scaledInputs inputs baselines rand)).getD a []).getD e []).length) :
    (((inputBaselineXGradientAttr gradient_func true inputs baselines rand).getD a []).getD e []).getD j 0
      = ((((gradient_func (scaledInputs inputs baselines rand)).getD a []).getD e []).getD j 0)
        * (((inputs.getD a []).getD e []).getD j 0
            - ((baselines.getD a []).getD e []).getD j 0)
    ∧ inputBaselineXGradientAttr gradient_func false inputs baselines rand
      = gradient_func (scaledInputs inputs baselines rand) := by
  constructor
  · have hsl : a < (List.zipWith subT inputs baselines).length := by
      rw [List.length_zipWith]
      exact lt_min ha₁ ha₂
    have h₁ : (inputBaselineXGradientAttr gradient_func true inputs baselines rand).getD a []
        = mulT ((List.zipWith subT inputs baselines).getD a [])
            ((gradient_func (scaledInputs inputs baselines rand)).getD a []) := by
      simp only [inputBaselineXGradientAttr, if_true]
      exact zipWith_getD mulT [] [] [] _ _ a hsl ha₃
    have h₂ : (List.zipWith subT inputs baselines).getD a []
        = subT (inputs.getD a []) (baselines.getD a []) :=
      zipWith_getD subT [] [] [] inputs baselines a ha₁ ha₂
    have hse : e < (subT (inputs.getD a []) (baselines.getD a [])).length := by
      rw [subT, List.length_zipWith]
      exact lt_min he₁ he₂
    have h₃ : (mulT (subT (inputs.getD a []) (baselines.getD a []))
          ((gradient_func (scaledInputs inputs baselines rand)).getD a [])).getD e []
        = List.zipWith (· * ·)
            ((subT (inputs.getD a []) (baselines.getD a [])).getD e [])
            (((gradient_func (scaledInputs inputs baselines rand)).getD a []).getD e []) :=
      zipWith_getD _ [] [] [] _ _ e hse he₃
    have h₄ : (subT (inputs.getD a []) (baselines.getD a [])).getD e []
        = List.zipWith (· - ·) ((inputs.getD a []).getD e [])
            ((baselines.getD a []).getD e []) :=
      zipWith_getD _ [] [] [] _ _ e he₁ he₂
    have hje : j < (List.zipWith (· - ·) ((inputs.getD a []).getD e [])
        ((baselines.getD a []).getD e [])).length := by
      rw [List.length_zipWith]
      exact lt_min hj₁ hj₂
    rw [h₁, h₂, h₃, h₄]
    rw [zipWith_getD (· * ·) 0 0 0 _ _ j hje hj₃,
      zipWith_getD (· - ·) 0 0 0 _ _ j hj₁ hj₂]
    ring
  · simp [inputBaselineXGradientAttr]

/-- Concrete instance of claim C7: linear-model gradients identically `[5]`,
input `[[2]]`, baseline `[[1/2]]`, so the attribution is `5 * (2 - 1/2)`. -/
theorem claim_C7_witness :
    (((inputBaselineXGradientAttr (fun b => b.map (fun t => t.map (fun _ => [5])))
          true [[[2]]] [[[1/2]]] [1]).getD 0 []).getD 0 []).getD 0 0
      = ((((fun (b : Bundle) => b.map (fun t => t.map (fun _ => [5])))
              (scaledInputs [[[2]]] [[[1/2]]] [1])).getD 0 []).getD 0 []).getD 0 0
        * (((([[[2]]] : Bundle).getD 0 []).getD 0 []).getD 0 0
            - ((([[[1/2]]] : Bundle).getD 0 []).getD 0 []).getD 0 0) :=
  (claim_C7_multiply_by_inputs_flag (fun b => b.map (fun t => t.map (fun _ => [5])))
    [[[2]]] [[[1/2]]] [1] 0 0 0
    (by decide) (by decide) (by decide) (by decide) (by decide) (by decide)
    (by decide) (by decide) (by decide)).1

/-- Claim C1: the spec says a tuple `stdevs` whose length equals the number
of input tensors succeeds and adds per-tensor noise; in the source the local
`stdevs_` is assigned only in the single-float branch of
`add_noise_to_inputs`, so the tuple path reaches `zip(inputs, stdevs_)` with
`stdevs_` unbound and raises `UnboundLocalError` instead of succeeding.
Concrete failing run: two input tensors, `stdevs = (1/2, 1/4)`. -/
theorem claim_C1_matching_tuple_stdevs_raises_unbound_local :
    (ntAttribute (fun b (_ : Unit) => b) (fun _ _ k => k) (fun _ _ _ _ => 0)
        [[[1]], [[2]]] "smoothgrad" 1 none (StdevArg.tup [1/2, 1/4]) false ()).1
      = Except.error (NTErr.unboundLocal "stdevs_") := rfl

/-- Claim C9: for every smoothing-mode string outside
{smoothgrad, smoothgrad_sq, vargrad} the aggregator fails with
InvalidArgument, with an empty invocation trace: the wrapped attribution
method is never called and no trial is folded into the accumulators. -/
theorem claim_C9_invalid_smoothing_mode_rejected_before_any_trial {κ : Type}
    (A : Bundle → κ → Bundle) (expandK : Bool → ℕ → κ → κ)
    (gs : ℕ → ℕ → ℕ → ℕ → ℚ) (inputs : Bundle) (ntType : String)
    (ntSamples : ℕ) (sbs : Option ℕ) (stdevs : StdevArg) (draw : Bool) (kw : κ)
    (h : validNoiseTunnelType ntType = false) :
    ntAttribute A expandK gs inputs ntType ntSamples sbs stdevs draw kw
      = (Except.error (NTErr.invalidArgument
          "Noise types must be smoothgrad, smoothgrad_sq or vargrad"), []) := by
  simp [ntAttribute, h]

/-- Concrete instance of claim C9 at the smoothing mode "bogus". -/
theorem claim_C9_witness :
    ntAttribute (fun b (_ : Unit) => b) (fun _ _ k => k) (fun _ _ _ _ => 0)
        [[[1]]] "bogus" 5 none (StdevArg.float 1) false ()
      = (Except.error (NTErr.invalidArgument
          "Noise types must be smoothgrad, smoothgrad_sq or vargrad"), []) :=
  claim_C9_invalid_smoothing_mode_rejected_before_any_trial
    (fun b (_ : Unit) => b) (fun _ _ k => k) (fun _ _ _ _ => 0)
    [[[1]]] "bogus" 5 none (StdevArg.float 1) false () (by decide)

/-- Claim C10: `NoiseTunnel.__init__` caches the wrapped method's
`has_convergence_delta()` and `multiplies_by_inputs`;
`NoiseTunnel.has_convergence_delta` returns exactly the cached value; and a
delta is attached to the result of `attribute` if and only if
`return_convergence_delta` is present and true in the keyword arguments and
the wrapped method supports delta, otherwise the bare attributions are
returned. -/
theorem claim_C10_construction_and_delta_wiring (m : AttributionMethod)
    (attrs : Bundle) (rcdKwarg : Option Bool) (delta : Option Tensor) :
    (NoiseTunnel_init m).is_delta_supported = m.has_convergence_delta
    ∧ (NoiseTunnel_init m).multipliesByInputs = m.multiplies_by_inputs
    ∧ (NoiseTunnel_init m).hasConvergenceDelta = m.has_convergence_delta
    ∧ ((∃ d, apply_checks_and_return_attributions (NoiseTunnel_init m) attrs
            (returnConvergenceDeltaOf rcdKwarg) delta = AttrResult.withDelta attrs d)
        ↔ returnConvergenceDeltaOf rcdKwarg = true ∧ m.has_convergence_delta = true)
    ∧ (¬ (returnConvergenceDeltaOf rcdKwarg = true ∧ m.has_convergence_delta = true) →
        apply_checks_and_return_attributions (NoiseTunnel_init m) attrs
            (returnConvergenceDeltaOf rcdKwarg) delta = AttrResult.plain attrs) := by
  refine ⟨rfl, rfl, rfl, ?_, ?_⟩
  · constructor
    · intro hd
      rcases hd with ⟨d, hd⟩
      by_cases h₁ : (NoiseTunnel_init m).is_delta_supported
          && returnConvergenceDeltaOf rcdKwarg
      · exact ⟨(Bool.and_eq_true _ _ ▸ h₁).2, (Bool.and_eq_true _ _ ▸ h₁).1⟩
      · simp [apply_checks_and_return_attributions, h₁] at hd
    · intro hb
      refine ⟨delta.getD [], ?_⟩
      simp [apply_checks_and_return_attributions, NoiseTunnel_init, hb.1, hb.2]
  · intro hb
    by_cases h : returnConvergenceDeltaOf rcdKwarg = true
    · by_cases h' : m.has_convergence_delta = true
      · exact absurd ⟨h, h'⟩ hb
      · have h'' : m.has_convergence_delta = false := Bool.eq_false_iff.mpr h'
        simp [apply_checks_and_return_attributions, NoiseTunnel_init, h'']
    · have h'' : returnConvergenceDeltaOf rcdKwarg = false := Bool.eq_false_iff.mpr h
      simp [apply_checks_and_return_attributions, h'']

/-- Concrete instance of claim C10: delta supported and requested, so the
result carries a delta tensor. -/
theorem claim_C10_witness :
    ∃ d, apply_checks_and_return_attributions
        (NoiseTunnel_init ⟨true, true⟩) [[[1]]]
        (returnConvergenceDeltaOf (some true)) (some [[2]])
      = AttrResult.withDelta [[[1]]] d :=
  (claim_C10_construction_and_delta_wiring ⟨true, true⟩ [[[1]]]
    (some true) (some [[2]])).2.2.2.1.mpr (by exact ⟨rfl, rfl⟩)

/-- Claim C8: `GradientShap.attribute` returns exactly what the noise-tunnel
aggregator returns when wrapped around a freshly constructed
`InputBaselineXGradient` with the same gradient engine and
`multiply_by_inputs` flag, invoked with smoothing mode "smoothgrad",
`nt_samples = n_samples`, the given `stdevs`, the resolved baseline pool as
the `baselines` keyword argument, and `draw_baseline_from_distrib = true`. -/
theorem claim_C8_gradient_shap_delegates_to_aggregator
    (gf : Bundle → Bundle) (m : Bool) (expandK : Bool → ℕ → GSKw → GSKw)
    (gs : ℕ → ℕ → ℕ → ℕ → ℚ) (inputs : Bundle) (baselines : BaselinesArg)
    (n_samples : ℕ) (stdevs : StdevArg) (rand : List ℚ) :
    GradientShapM.attribute ⟨gf, m⟩ expandK gs inputs baselines n_samples stdevs rand
      = ntAttribute
          (fun ins kw => inputBaselineXGradientAttr gf m ins kw.baselines kw.rand)
          expandK gs inputs "smoothgrad" n_samples none stdevs true
          { baselines := format_callable_baseline baselines inputs, rand := rand } :=
  rfl

end Captum
